import Mathlib

/-
Verification of the tagvalue repository (lexer.go and the DKIM key checker)
against its natural-language specification.

The Go code is embedded shallowly:
  * the input string becomes a `List Char` and lexer positions become `Nat`
    indices into that list (the Go code advances rune by rune; for the byte
    bookkeeping we count characters);
  * each lexer method is translated as a function from a position to a new
    position (the Go methods mutate `l.pos`; `l.ignore` corresponds to using
    the returned position as the next `start`);
  * fallible Go functions return `Except GoError _`.  `GoError.parseError`
    models the `ParseError` struct (message and offset) and
    `GoError.plainError` models an error built with `errors.New`, which
    carries no position;
  * the two nested scanning loops of `NewTagValue` become fuel-based
    recursive functions; the fuel handed to the top level is larger than the
    input, so it never runs out on the paths the Go loops take.
-/

namespace Tagvalue

/-- The single-quote character, written by code point to keep it out of
string literals. -/
def sqChar : Char := Char.ofNat 39

/-- The double-quote character, written by code point. -/
def dqChar : Char := Char.ofNat 34

/-- One-character string holding a single quote. -/
def sq : String := String.mk [sqChar]

/-- Whitespace characters: WSP = SP / HTAB, the Go string literal given to
`l.acceptRun` at the start of `acceptOptionalFws`. -/
def wsp : List Char := [' ', '\t']

/-- The character set consumed by `acceptTagRun`: alphamerics plus
underscore. -/
def tagRunChars : List Char :=
  "abcdefghijklmnopqrstuvwxyzABCDEFGHIJKLMNOPQRSTUVWXYZ0123456789_".toList

/-- Length of the maximal prefix of a character list lying inside `valid`:
the net position advance of the lexer method `acceptRun(valid)`. -/
def runLength (valid : List Char) : List Char → Nat
  | [] => 0
  | c :: cs => if c ∈ valid then runLength valid cs + 1 else 0

/-- Errors produced by the lexer.  `parseError` embeds the `ParseError`
struct of lexer.go (message plus offset); `plainError` embeds an error value
built with `errors.New`, which has a message but no position. -/
inductive GoError where
  | parseError (Message : String) (Pos : Nat)
  | plainError (message : String)
deriving DecidableEq

/-- Net effect of `(*lexer).acceptOptionalFws` on the position: consume a run
of WSP; if the input then continues with CRLF, the CRLF must be followed by
at least one WSP (then a further WSP run is consumed), otherwise the method
fails with `errors.New("malformed folding whitespace")` — an error without
any position. -/
def acceptOptionalFws (input : List Char) (pos : Nat) : Except GoError Nat :=
  let p := pos + runLength wsp (input.drop pos)
  if (input.drop p).take 2 = ['\r', '\n'] then
    match (input.drop (p + 2)).head? with
    | some c =>
      if c ∈ wsp then
        .ok (p + 3 + runLength wsp (input.drop (p + 3)))
      else
        .error (.plainError "malformed folding whitespace")
    | none => .error (.plainError "malformed folding whitespace")
  else
    .ok p

/-- A parsed tag-value pair, the `Item` struct of lexer.go. -/
structure Item where
  Tag : List Char
  Value : List Char
  TagPos : Nat
  ValuePos : Nat
deriving DecidableEq

/-- The character test of the innermost value loop of `NewTagValue`:
`r != ';' && r >= '!' && r <= '~'`. -/
def isValchar (c : Char) : Bool :=
  (c != ';') && (decide ('!' ≤ c)) && (decide (c ≤ '~'))

/-- Length of the maximal prefix of a character list made of value
characters: the net advance of the innermost loop of `NewTagValue` before it
backs up at a non-VALCHAR. -/
def valcharRun : List Char → Nat
  | [] => 0
  | c :: cs => if isValchar c then valcharRun cs + 1 else 0

/-- The labeled `value:` loop of `NewTagValue`.  Starting at `pos`, consume a
run of value characters (ending at the recorded `whitespacePos`), then
optional folding whitespace; if the next rune is EOF or a semicolon the value
is complete, otherwise that rune is consumed and the loop repeats.  Returns
`(whitespacePos, resumePos)`: the position the stored value ends at, and the
position at which the outer loop of `NewTagValue` resumes (just past the
semicolon, or at EOF). -/
def scanValue (input : List Char) : Nat → Nat → Except GoError (Nat × Nat)
  | 0, _ => .error (.plainError "out of fuel")
  | fuel + 1, pos =>
    let q := pos + valcharRun (input.drop pos)
    match acceptOptionalFws input q with
    | .error e => .error e
    | .ok q2 =>
      match (input.drop q2).head? with
      | none => .ok (q, q2)
      | some c =>
        if c = ';' then .ok (q, q2 + 1)
        else scanValue input fuel (q2 + 1)

/-- Message of the ParseError raised when the rune after a tag is not an
equals sign. -/
def expectingEqMsg : String := "expecting " ++ sq ++ "=" ++ sq

/-- The outer loop of `NewTagValue`: skip folding whitespace, stop at EOF,
read a tag (one alpha rune then a run of tag characters), skip folding
whitespace, require an equals sign, skip folding whitespace, then scan the
value with `scanValue` and continue after its resume position.  Positions in
the produced `Item`s and `ParseError`s are exactly the `l.start` / `l.pos`
values the Go code stores at the same points. -/
def parseLoop (input : List Char) : Nat → Nat → Except GoError (List Item)
  | 0, _ => .error (.plainError "out of fuel")
  | fuel + 1, pos =>
    match acceptOptionalFws input pos with
    | .error e => .error e
    | .ok p =>
      match (input.drop p).head? with
      | none => .ok []
      | some c =>
        if (c < 'a' ∨ 'z' < c) ∧ (c < 'A' ∨ 'Z' < c) then
          .error (.parseError "expecting alpha character in tag" (p + 1))
        else
          let tagEnd := p + 1 + runLength tagRunChars (input.drop (p + 1))
          let tag := (input.drop p).take (tagEnd - p)
          match acceptOptionalFws input tagEnd with
          | .error e => .error e
          | .ok p2 =>
            match (input.drop p2).head? with
            | none => .error (.parseError expectingEqMsg p2)
            | some c2 =>
              if c2 = '=' then
                match acceptOptionalFws input (p2 + 1) with
                | .error e => .error e
                | .ok vstart =>
                  match scanValue input fuel vstart with
                  | .error e => .error e
                  | .ok (q, r) =>
                    match parseLoop input fuel r with
                    | .error e => .error e
                    | .ok rest =>
                      .ok ({ Tag := tag, Value := (input.drop vstart).take (q - vstart),
                             TagPos := p, ValuePos := vstart } :: rest)
              else .error (.parseError expectingEqMsg (p2 + 1))

/-- `NewTagValue` parses a RFC 6376 tag=value input and returns the list of
parsed tag-value pairs. -/
def NewTagValue (input : List Char) : Except GoError (List Item) :=
  parseLoop input (input.length + 2) 0

/-- A severity-tagged annotation, the `FieldError` struct (the message is the
already-rendered `template.HTML` text). -/
structure FieldError where
  Message : String
  Severity : String
deriving DecidableEq

/-- The `Field` struct: an embedded `Item` plus its ordinal index, the
duplicate flag, the defined flag, and its annotations. -/
structure Field where
  Item : Item
  Index : Nat
  Duplicate : Bool
  Defined : Bool
  Errors : List FieldError
deriving DecidableEq

/-- Go maps from tag to `Field` are embedded as association lists whose keys
are unique; insertion replaces an existing binding in place. -/
def mapUpsert : List (List Char × Field) → List Char → Field → List (List Char × Field)
  | [], k, v => [(k, v)]
  | (k2, v2) :: rest, k, v =>
    if k2 = k then (k, v) :: rest else (k2, v2) :: mapUpsert rest k v

/-- Lookup in the association-list embedding of a Go map. -/
def mapLookup : List (List Char × Field) → List Char → Option Field
  | [], _ => none
  | (k2, v2) :: rest, k => if k2 = k then some v2 else mapLookup rest k

/-- The comma-ok form `_, seen := fields[tag]`. -/
def mapHasKey (m : List (List Char × Field)) (k : List Char) : Bool :=
  (mapLookup m k).isSome

/-- Number of bindings a key has in the association list (Go maps always
have at most one; the count makes that observable here). -/
def mapCountKey (m : List (List Char × Field)) (k : List Char) : Nat :=
  (m.filter (fun p => decide (p.1 = k))).length

/-- The builtin `delete(m, k)`. -/
def mapDelete (m : List (List Char × Field)) (k : List Char) : List (List Char × Field) :=
  m.filter (fun p => decide (p.1 ≠ k))

/-- The `for i, item := range items` loop of `NewMap`: each item is written
over any previous binding of its tag, with `Duplicate` set when the tag was
already present. -/
def buildFields : List Item → Nat → List (List Char × Field) → List (List Char × Field)
  | [], _, fields => fields
  | item :: rest, i, fields =>
    buildFields rest (i + 1)
      (mapUpsert fields item.Tag
        { Item := item, Index := i, Duplicate := mapHasKey fields item.Tag,
          Defined := true, Errors := [] })

/-- `NewMap` parses a RFC 6376 tag=value input and returns a map of tag to
field. -/
def NewMap (input : List Char) : Except GoError (List (List Char × Field)) :=
  match NewTagValue input with
  | .error e => .error e
  | .ok items => .ok (buildFields items 0 [])

/-- Go `template.HTMLEscapeString` applied to one character: the five
special characters are replaced by entities. -/
def htmlEscapeChar (c : Char) : String :=
  if c = '&' then "&amp;"
  else if c = sqChar then "&#39;"
  else if c = '<' then "&lt;"
  else if c = '>' then "&gt;"
  else if c = dqChar then "&#34;"
  else String.mk [c]

/-- Go `template.HTMLEscapeString`. -/
def HTMLEscapeString (s : String) : String :=
  String.join (s.toList.map htmlEscapeChar)

/-- The dynamic type of the `message interface{}` argument of
`(*Field).annotate` as used in this repository: either a plain Go `string`
(HTML-escaped when rendered) or an already-safe `template.HTML` value
(rendered verbatim).  The `template.Template` case is never exercised. -/
inductive MsgArg where
  | str (s : String)
  | html (s : String)
deriving DecidableEq

/-- Rendering done by `(*Field).annotate`: strings are passed through
`template.HTMLEscapeString`, `template.HTML` values are kept as they are. -/
def MsgArg.render : MsgArg → String
  | .str s => HTMLEscapeString s
  | .html s => s

/-- `(*Field).annotate`: append a severity-tagged annotation to the field. -/
def Field.annotate (f : Field) (severity : String) (message : MsgArg) : Field :=
  { f with Errors := f.Errors ++ [{ Message := message.render, Severity := severity }] }

/-- `(*Field).addError`: annotate with severity danger. -/
def Field.addError (f : Field) (message : MsgArg) : Field :=
  f.annotate "danger" message

/-- `(*Field).addWarning`: annotate with severity warning. -/
def Field.addWarning (f : Field) (message : MsgArg) : Field :=
  f.annotate "warning" message

/-- `(*Field).addInfo`: annotate with severity info. -/
def Field.addInfo (f : Field) (message : MsgArg) : Field :=
  f.annotate "info" message

/-- The `ParseError` struct as stored inside `DkimKey` (its zero value has
an empty message and offset 0). -/
structure ParseError where
  Message : String
  Pos : Nat
deriving DecidableEq

/-- Zero value of `Item`. -/
def zeroItem : Item :=
  { Tag := [], Value := [], TagPos := 0, ValuePos := 0 }

/-- Zero value of `Field`, as produced by indexing a Go map at a missing
key. -/
def zeroField : Field :=
  { Item := zeroItem, Index := 0, Duplicate := false, Defined := false, Errors := [] }

/-- Zero value of `ParseError`. -/
def zeroParseError : ParseError :=
  { Message := "", Pos := 0 }

/-- `Fields["v"]` and friends: map indexing that yields the zero `Field`
when the key is absent. -/
def lookupField (m : List (List Char × Field)) (k : List Char) : Field :=
  (mapLookup m k).getD zeroField

/-- `DkimKey` represents a DKIM public key, as published to DNS. -/
structure DkimKey where
  V : Field
  G : Field
  H : Field
  K : Field
  N : Field
  P : Field
  S : Field
  T : Field
  Unrecognized : List (List Char × Field)
  ParseError : ParseError
deriving DecidableEq

/-- Zero value of `DkimKey`: what `NewDkimKey` returns (with only
`ParseError` filled in) when parsing fails. -/
def zeroDkimKey : DkimKey :=
  { V := zeroField, G := zeroField, H := zeroField, K := zeroField,
    N := zeroField, P := zeroField, S := zeroField, T := zeroField,
    Unrecognized := [], ParseError := zeroParseError }

/-- The slice `[]string{"v", "g", "h", "k", "n", "p", "s", "t"}` whose keys
are deleted from `Unrecognized`. -/
def knownTags : List (List Char) :=
  ["v".toList, "g".toList, "h".toList, "k".toList,
   "n".toList, "p".toList, "s".toList, "t".toList]

/-- Message of the danger annotation added when the v tag value is not
DKIM1 (a `template.HTML` literal; the source string ends in a stray double
quote). -/
def versionValueMsg : String :=
  "The version field must be <a href=\"/rfc/6376#section-3.6.1\">DKIM1</a>\""

/-- Message of the danger annotation added when the v tag is not the first
tag (a `template.HTML` literal). -/
def versionIndexMsg : String :=
  "The version tag must be the <a href=\"https://tools.wordtothewise.com/rfc/6376#section-3.6.1\">first tag in the record</a>"

/-- Message of the warning added when the v tag is absent (a plain string,
so it is HTML-escaped when stored; it contains no special characters). -/
def versionAbsentMsg : String :=
  "DKIM key records should ideally have a version field"

/-- Message of the warning added for `g=*` (a `template.HTML` literal). -/
def granularityStarMsg : String :=
  "The granularity field (\"g=*\") is deprecated in <a href=\"https://tools.wordtothewise.com/rfc/6376#appendix-C.2\">RFC 6376</a>"

/-- Message of the danger annotation added for any other g value (a plain
Go string in the source — a raw backquoted literal, not `template.HTML` —
so it is HTML-escaped when stored). -/
def granularityOtherMsg : String :=
  "The granularity field (\"g=\") is deprecated in <a href=\"https://tools.wordtothewise.com/rfc/6376#appendix-C.2\">RFC 6376</a> and this value will be treated differently by pre-6376 and post-6376 validators"

/-- Message of the warning added for an h token equal to sha1 (a
`template.HTML` literal). -/
def sha1Msg : String :=
  "SHA1 is <a href=\"/rfc/8301#section-3.1\">not a trusted hash</a>, mail using it may fail DKIM now or in the future"

/-- Message of the warning added for an unrecognized h token.  The source
calls `fmt.Sprintf` on a format string containing a single percent-s verb
but passes no operand, so the rendered text is the literal
`%!s(MISSING)` marker in single quotes followed by the rest of the format
string — it never contains the offending token. -/
def unknownHashMsg : String :=
  sq ++ "%!s(MISSING)" ++ sq ++ " isn" ++ sq ++ "t a hash type I recognize"

/-- The `// Annotate version` block of `NewDkimKey`. -/
def annotateVersion (k : DkimKey) : DkimKey :=
  if k.V.Defined then
    let k1 :=
      if k.V.Item.Value ≠ "DKIM1".toList then
        { k with V := k.V.addError (.html versionValueMsg) }
      else k
    if k1.V.Index ≠ 0 then
      { k1 with V := k1.V.addError (.html versionIndexMsg) }
    else k1
  else
    { k with V := k.V.addWarning (.str versionAbsentMsg) }

/-- The `// Annotate granularity` block of `NewDkimKey`.  In the source both
calls in this block are written on `ret.V`, so the annotations land on the
V field, not on the G field. -/
def annotateGranularity (k : DkimKey) : DkimKey :=
  if k.G.Defined then
    if k.G.Item.Value = "*".toList then
      { k with V := k.V.addWarning (.html granularityStarMsg) }
    else
      { k with V := k.V.addError (.str granularityOtherMsg) }
  else k

/-- One step of the `for _, algo := range algos` switch in the
`// Annotate hash` block. -/
def annotateHashAlgo (f : Field) (algo : List Char) : Field :=
  if algo = "sha256".toList then f
  else if algo = "sha1".toList then f.addWarning (.html sha1Msg)
  else f.addWarning (.str unknownHashMsg)

/-- The `// Annotate hash` block of `NewDkimKey`: the h value is split on
colons (`strings.Split`, which yields one empty token for an empty value)
and each token is checked in order. -/
def annotateHash (k : DkimKey) : DkimKey :=
  if k.H.Defined then
    { k with H := (k.H.Item.Value.splitOn ':').foldl annotateHashAlgo k.H }
  else k

/-- `NewDkimKey` sanity checks a DKIM key record.  On a parse failure only
`ParseError` is set (a non-`ParseError` error keeps its message but has no
position, so `Pos` is the zero value 0).  On success the eight known tags
are projected into named fields, deleted from the map that becomes
`Unrecognized`, and the annotation blocks run (the `// Annotate signing
algorithm` switch in the source is empty and the function then ends,
returning the value built in `ret`). -/
def NewDkimKey (input : List Char) : DkimKey :=
  match NewMap input with
  | .error e =>
    match e with
    | .parseError m p => { zeroDkimKey with ParseError := { Message := m, Pos := p } }
    | .plainError m => { zeroDkimKey with ParseError := { Message := m, Pos := 0 } }
  | .ok fields =>
    let ret : DkimKey :=
      { V := lookupField fields "v".toList
        G := lookupField fields "g".toList
        H := lookupField fields "h".toList
        K := lookupField fields "k".toList
        N := lookupField fields "n".toList
        P := lookupField fields "p".toList
        S := lookupField fields "s".toList
        T := lookupField fields "t".toList
        Unrecognized := knownTags.foldl mapDelete fields
        ParseError := zeroParseError }
    annotateHash (annotateGranularity (annotateVersion ret))

/-- Image of a lexer error under the error handling of `NewDkimKey`: a
`ParseError` value is kept, any other error keeps its message and gets the
zero offset. -/
def goErrorToParseError : GoError → ParseError
  | .parseError m p => { Message := m, Pos := p }
  | .plainError m => { Message := m, Pos := 0 }

/-- Index and item of the last occurrence of tag `t` in a list of items
(0-based, counted from the front of the list). -/
def lastTagged (t : List Char) : List Item → Option (Nat × Item)
  | [] => none
  | it :: rest =>
    match lastTagged t rest with
    | some ji => some (ji.1 + 1, ji.2)
    | none => if it.Tag = t then some (0, it) else none

/-- Number of items carrying tag `t`. -/
def countTagged (t : List Char) (items : List Item) : Nat :=
  (items.filter (fun it => decide (it.Tag = t))).length

/-- Every character of the interval `[a, b)` of the input is one of the
characters `acceptOptionalFws` can consume: WSP, CR or LF. -/
def fwsSpan (input : List Char) (a b : Nat) : Prop :=
  ∀ k, a ≤ k → k < b → ∃ c, input.get? k = some c ∧ (c ∈ wsp ∨ c = '\r' ∨ c = '\n')

/-- Re-serialization of a list of items, written from the specification:
the concatenation of `<tag>=<value>;` for every item in order. -/
def renderItems (items : List Item) : List Char :=
  List.flatten (items.map (fun it => it.Tag ++ ['='] ++ it.Value ++ [';']))

/-- Removal of all optional whitespace (WSP) from a character list. -/
def stripWsp (l : List Char) : List Char :=
  l.filter (fun c => decide (c ∉ wsp))

/-! Lemmas about the annotation passes: each pass rewrites a single named
field of the key and leaves everything else alone. -/

theorem annotateVersion_Unrecognized (k : DkimKey) :
    (annotateVersion k).Unrecognized = k.Unrecognized := by
  unfold annotateVersion
  split <;> [skip; rfl]
  dsimp only
  split <;> split <;> rfl

theorem annotateVersion_ParseError (k : DkimKey) :
    (annotateVersion k).ParseError = k.ParseError := by
  unfold annotateVersion
  split <;> [skip; rfl]
  dsimp only
  split <;> split <;> rfl

theorem annotateGranularity_Unrecognized (k : DkimKey) :
    (annotateGranularity k).Unrecognized = k.Unrecognized := by
  unfold annotateGranularity
  split <;> [skip; rfl]
  split <;> rfl

theorem annotateGranularity_ParseError (k : DkimKey) :
    (annotateGranularity k).ParseError = k.ParseError := by
  unfold annotateGranularity
  split <;> [skip; rfl]
  split <;> rfl

theorem annotateHash_Unrecognized (k : DkimKey) :
    (annotateHash k).Unrecognized = k.Unrecognized := by
  unfold annotateHash
  split <;> rfl

theorem annotateHash_ParseError (k : DkimKey) :
    (annotateHash k).ParseError = k.ParseError := by
  unfold annotateHash
  split <;> rfl

/-- Claim C8: for every input on which parsing fails, `NewDkimKey` returns
the zero `DkimKey` with only `ParseError` populated — all named fields are
zero-valued (`Defined = false`, no annotations) and `Unrecognized` is empty;
and for every input that parses, `ParseError` stays zero-valued, so a set
`ParseError` and populated fields are mutually exclusive. -/
theorem C8_parse_error_zeroes_fields (input : List Char) :
    (∀ e, NewMap input = .error e →
      NewDkimKey input = { zeroDkimKey with ParseError := goErrorToParseError e }) ∧
    (∀ m, NewMap input = .ok m →
      (NewDkimKey input).ParseError = zeroParseError) := by
  constructor
  · intro e he
    unfold NewDkimKey
    rw [he]
    cases e <;> rfl
  · intro m hm
    unfold NewDkimKey
    rw [hm]
    dsimp only
    rw [annotateHash_ParseError, annotateGranularity_ParseError, annotateVersion_ParseError]

/-- Witness for C8 at concrete inputs: `"1x"` fails to parse and yields only
a populated `ParseError`; `"v=DKIM1"` parses and leaves `ParseError` zero. -/
theorem C8_parse_error_zeroes_fields_witness :
    NewDkimKey "1x".toList =
      { zeroDkimKey with
        ParseError := goErrorToParseError (.parseError "expecting alpha character in tag" 1) } ∧
    (NewDkimKey "v=DKIM1".toList).ParseError = zeroParseError := by
  constructor
  · exact (C8_parse_error_zeroes_fields "1x".toList).1
      (.parseError "expecting alpha character in tag" 1) (by rfl)
  · exact (C8_parse_error_zeroes_fields "v=DKIM1".toList).2
      [("v".toList,
        { Item := { Tag := "v".toList, Value := "DKIM1".toList, TagPos := 0, ValuePos := 2 },
          Index := 0, Duplicate := false, Defined := true, Errors := [] })]
      (by rfl)

/-! Lemmas about deletion from the association-list embedding of Go maps. -/

theorem mapLookup_delete_self (m : List (List Char × Field)) (k : List Char) :
    mapLookup (mapDelete m k) k = none := by
  induction m with
  | nil => rfl
  | cons p rest ih =>
    obtain ⟨k2, v2⟩ := p
    by_cases h : k2 = k
    · simpa [mapDelete, h] using ih
    · simpa [mapDelete, mapLookup, h] using ih

theorem mapLookup_delete_none (m : List (List Char × Field)) (k k2 : List Char)
    (h : mapLookup m k = none) : mapLookup (mapDelete m k2) k = none := by
  induction m with
  | nil => rfl
  | cons p rest ih =>
    obtain ⟨k3, v3⟩ := p
    by_cases h3 : k3 = k
    · simp [mapLookup, h3] at h
    · by_cases h2 : k3 = k2
      · simp only [mapLookup, if_neg h3] at h
        simpa [mapDelete, h2] using ih h
      · simp only [mapLookup, if_neg h3] at h
        simpa [mapDelete, mapLookup, h2, h3] using ih h

theorem mapLookup_foldl_delete_none (ks : List (List Char))
    (m : List (List Char × Field)) (k : List Char)
    (h : mapLookup m k = none) : mapLookup (ks.foldl mapDelete m) k = none := by
  induction ks generalizing m with
  | nil => exact h
  | cons k2 ks ih => exact ih _ (mapLookup_delete_none m k k2 h)

theorem mapLookup_foldl_delete (ks : List (List Char))
    (m : List (List Char × Field)) (k : List Char)
    (h : k ∈ ks) : mapLookup (ks.foldl mapDelete m) k = none := by
  induction ks generalizing m with
  | nil => cases h
  | cons k2 ks ih =>
    rcases List.mem_cons.mp h with h | h
    · subst h
      exact mapLookup_foldl_delete_none ks _ k (mapLookup_delete_self m k)
    · exact ih (mapDelete m k2) h

/-- Claim C9: for every input that parses, the `Unrecognized` map of the
returned `DkimKey` has no entry for any of the eight known key-tag names —
they are always deleted after projection into the named fields. -/
theorem C9_unrecognized_excludes_known_tags (input : List Char)
    (m : List (List Char × Field)) (k : List Char)
    (hm : NewMap input = .ok m) (hk : k ∈ knownTags) :
    mapLookup (NewDkimKey input).Unrecognized k = none := by
  unfold NewDkimKey
  rw [hm]
  dsimp only
  rw [annotateHash_Unrecognized, annotateGranularity_Unrecognized,
    annotateVersion_Unrecognized]
  exact mapLookup_foldl_delete knownTags m k hk

/-- Witness for C9: in the parsed record `"v=1;x=2"` the key `"v"` is not in
`Unrecognized`. -/
theorem C9_unrecognized_excludes_known_tags_witness :
    mapLookup (NewDkimKey "v=1;x=2".toList).Unrecognized "v".toList = none := by
  refine C9_unrecognized_excludes_known_tags "v=1;x=2".toList ?_ "v".toList ?_ ?_
  · exact [("v".toList,
      { Item := { Tag := "v".toList, Value := "1".toList, TagPos := 0, ValuePos := 2 },
        Index := 0, Duplicate := false, Defined := true, Errors := [] }),
     ("x".toList,
      { Item := { Tag := "x".toList, Value := "2".toList, TagPos := 4, ValuePos := 6 },
        Index := 1, Duplicate := false, Defined := true, Errors := [] })]
  · rfl
  · decide

/-- Claim C3: on `"g=*"` (g present with value `*`) the claimed behavior is a
single warning on the g field; the code instead leaves `G.Errors` empty and
appends the granularity warning to the V field (after the version-absent
warning), because both calls in the `// Annotate granularity` block are
written on `ret.V`. -/
theorem C3_granularity_annotation_on_wrong_field :
    (NewDkimKey "g=*".toList).G.Errors = [] ∧
    (NewDkimKey "g=*".toList).V.Errors =
      [{ Message := HTMLEscapeString versionAbsentMsg, Severity := "warning" },
       { Message := granularityStarMsg, Severity := "warning" }] ∧
    (NewDkimKey "g=*".toList).G.Defined = true := by
  refine ⟨rfl, rfl, rfl⟩

/-- Claim C4: on `"h=md5"` the claimed behavior is a warning whose message
names the token `md5`; the code produces exactly one warning on the h field,
but its message is the HTML-escaped `%!s(MISSING)` text (the `fmt.Sprintf`
call has no operand for its percent-s verb) and does not contain `md5`. -/
theorem C4_unknown_hash_warning_lacks_token :
    (NewDkimKey "h=md5".toList).H.Errors =
      [{ Message := HTMLEscapeString unknownHashMsg, Severity := "warning" }] ∧
    ¬ ("md5".toList <:+: (HTMLEscapeString unknownHashMsg).toList) ∧
    (NewDkimKey "v=DKIM1;h=sha256:sha1".toList).H.Errors =
      [{ Message := sha1Msg, Severity := "warning" }] := by
  refine ⟨rfl, by decide, rfl⟩

/-- Claim C6: on `"v=DKIM1;g=x"` the v tag is present with value DKIM1 at
index 0, so the claim says the v field carries no danger annotation; the
code gives the V field exactly the granularity danger annotation (the
`// Annotate granularity` block writes to `ret.V`). -/
theorem C6_version_field_gets_granularity_danger :
    (NewDkimKey "v=DKIM1;g=x".toList).V.Item.Value = "DKIM1".toList ∧
    (NewDkimKey "v=DKIM1;g=x".toList).V.Index = 0 ∧
    (NewDkimKey "v=DKIM1;g=x".toList).V.Defined = true ∧
    (NewDkimKey "v=DKIM1;g=x".toList).V.Errors =
      [{ Message := HTMLEscapeString granularityOtherMsg, Severity := "danger" }] := by
  refine ⟨rfl, rfl, rfl, rfl⟩

/-- Claim C5, counterexample: the input `"a=b\r\nc"` holds a CRLF (at offset
3) not followed by a space or tab at a folding-whitespace skip point.
Parsing fails, but not with a `ParseError` carrying the offset of the CRLF:
the error is the position-less `errors.New` value, so no error of the
claimed shape is returned. -/
theorem C5_counterexample :
    NewTagValue "a=b\r\nc".toList = .error (.plainError "malformed folding whitespace") ∧
    ∀ m, NewTagValue "a=b\r\nc".toList ≠ .error (.parseError m 3) := by
  have h : NewTagValue "a=b\r\nc".toList =
      .error (.plainError "malformed folding whitespace") := rfl
  refine ⟨h, ?_⟩
  intro m hm
  rw [h] at hm
  simp at hm

/-- Claim C5, amended: whenever `acceptOptionalFws` meets, after its
optional WSP run, a CRLF that is not followed by a space or tab, it fails —
and the error it returns (which `NewTagValue` propagates unchanged) is the
plain `malformed folding whitespace` error carrying no position field at
all, rather than a `ParseError` holding the offset of the CRLF. -/
theorem C5_malformed_fws_error_positionless (input : List Char) (pos : Nat)
    (hcrlf : (input.drop (pos + runLength wsp (input.drop pos))).take 2 = ['\r', '\n'])
    (hnot : ∀ c, (input.drop (pos + runLength wsp (input.drop pos) + 2)).head? = some c →
      c ∉ wsp) :
    acceptOptionalFws input pos = .error (.plainError "malformed folding whitespace") := by
  unfold acceptOptionalFws
  rw [if_pos hcrlf]
  cases hh : (input.drop (pos + runLength wsp (input.drop pos) + 2)).head? with
  | none => rfl
  | some c =>
    have hcw : c ∉ wsp := hnot c hh
    simp [hcw]

/-- Witness for the amended C5: in `"a=b\r\nc"` the skip point reached after
the value character `b` sits at the CRLF (offset 3), which is followed by
`c`, and the FWS acceptor returns the position-less error. -/
theorem C5_malformed_fws_error_positionless_witness :
    acceptOptionalFws "a=b\r\nc".toList 3 =
      .error (.plainError "malformed folding whitespace") := by
  refine C5_malformed_fws_error_positionless "a=b\r\nc".toList 3 (by rfl) ?_
  intro c hc
  rw [show (List.drop (3 + runLength wsp (List.drop 3 "a=b\r\nc".toList) + 2)
      "a=b\r\nc".toList).head? = some 'c' from rfl] at hc
  cases hc
  decide

/-! One-step unfolding equations for the two fuel-based loops, used to drive
symbolic evaluation of the parser in later proofs. -/

theorem scanValue_succ (input : List Char) (fuel pos : Nat) :
    scanValue input (fuel + 1) pos =
      (let q := pos + valcharRun (input.drop pos)
       match acceptOptionalFws input q with
       | .error e => .error e
       | .ok q2 =>
         match (input.drop q2).head? with
         | none => .ok (q, q2)
         | some c =>
           if c = ';' then .ok (q, q2 + 1)
           else scanValue input fuel (q2 + 1)) := rfl

theorem parseLoop_succ (input : List Char) (fuel pos : Nat) :
    parseLoop input (fuel + 1) pos =
      (match acceptOptionalFws input pos with
       | .error e => .error e
       | .ok p =>
         match (input.drop p).head? with
         | none => .ok []
         | some c =>
           if (c < 'a' ∨ 'z' < c) ∧ (c < 'A' ∨ 'Z' < c) then
             .error (.parseError "expecting alpha character in tag" (p + 1))
           else
             let tagEnd := p + 1 + runLength tagRunChars (input.drop (p + 1))
             let tag := (input.drop p).take (tagEnd - p)
             match acceptOptionalFws input tagEnd with
             | .error e => .error e
             | .ok p2 =>
               match (input.drop p2).head? with
               | none => .error (.parseError expectingEqMsg p2)
               | some c2 =>
                 if c2 = '=' then
                   match acceptOptionalFws input (p2 + 1) with
                   | .error e => .error e
                   | .ok vstart =>
                     match scanValue input fuel vstart with
                     | .error e => .error e
                     | .ok (q, r) =>
                       match parseLoop input fuel r with
                       | .error e => .error e
                       | .ok rest =>
                         .ok ({ Tag := tag, Value := (input.drop vstart).take (q - vstart),
                                TagPos := p, ValuePos := vstart } :: rest)
                 else .error (.parseError expectingEqMsg (p2 + 1))) := rfl

/-- Claim C10: a character outside the printable value-character range
(other than a semicolon) sitting between two value-character runs — and so
not followed, after optional folding whitespace, by a semicolon or end of
input — is not a parse error: it is consumed and stored verbatim in the
value.  Stated for the family of inputs `a=b<c>c`; e.g. `"a=b\x01c"` parses
to the single item with value `b\x01c`. -/
theorem C10_nonprintable_kept_in_value (c : Char) (h1 : c ≠ ';')
    (h2 : ¬('!' ≤ c ∧ c ≤ '~')) :
    NewTagValue ("a=b".toList ++ [c] ++ "c".toList) =
      .ok [{ Tag := "a".toList, Value := "b".toList ++ [c] ++ "c".toList,
             TagPos := 0, ValuePos := 2 }] := by
  have hv : isValchar c = false := by
    by_cases ha : '!' ≤ c
    · by_cases hb : c ≤ '~'
      · exact absurd ⟨ha, hb⟩ h2
      · simp [isValchar, hb]
    · simp [isValchar, ha]
  by_cases hw : c ∈ wsp
  · have hcw : c = ' ' ∨ c = '\t' := by simpa [wsp] using hw
    rcases hcw with h | h <;> subst h <;> rfl
  · have hq : 2 + valcharRun (List.drop 2 ['a', '=', 'b', c, 'c']) = 3 := by
      rw [show List.drop 2 ['a', '=', 'b', c, 'c'] = ['b', c, 'c'] from rfl]
      simp [valcharRun, hv, show isValchar 'b' = true from rfl]
    have hrun : runLength wsp (List.drop 3 ['a', '=', 'b', c, 'c']) = 0 := by
      rw [show List.drop 3 ['a', '=', 'b', c, 'c'] = [c, 'c'] from rfl]
      simp [runLength, hw]
    have hfws3 : acceptOptionalFws ['a', '=', 'b', c, 'c'] 3 = .ok 3 := by
      unfold acceptOptionalFws
      rw [hrun]
      rw [show (3 + 0) = 3 from rfl]
      rw [if_neg]
      rw [show List.take 2 (List.drop 3 ['a', '=', 'b', c, 'c']) = [c, 'c'] from rfl]
      simp
    have hsv : scanValue ['a', '=', 'b', c, 'c'] 6 2 = .ok (5, 5) := by
      show scanValue ['a', '=', 'b', c, 'c'] (5 + 1) 2 = .ok (5, 5)
      rw [scanValue_succ]
      dsimp only
      rw [hq, hfws3]
      dsimp only
      rw [show (List.drop 3 ['a', '=', 'b', c, 'c']).head? = some c from rfl]
      dsimp only
      rw [if_neg h1]
      rw [show scanValue ['a', '=', 'b', c, 'c'] 5 (3 + 1) = .ok (5, 5) from rfl]
    show parseLoop ['a', '=', 'b', c, 'c'] (6 + 1) 0 =
      .ok [{ Tag := ['a'], Value := ['b', c, 'c'], TagPos := 0, ValuePos := 2 }]
    rw [parseLoop_succ]
    rw [show acceptOptionalFws ['a', '=', 'b', c, 'c'] 0 = .ok 0 from rfl]
    dsimp only
    rw [show (List.drop 0 ['a', '=', 'b', c, 'c']).head? = some 'a' from rfl]
    dsimp only
    rw [if_neg (show ¬(('a' < 'a' ∨ 'z' < 'a') ∧ ('a' < 'A' ∨ 'Z' < 'a')) by decide)]
    rw [show (0 + 1 + runLength tagRunChars (List.drop (0 + 1) ['a', '=', 'b', c, 'c'])) = 1
      from rfl]
    rw [show acceptOptionalFws ['a', '=', 'b', c, 'c'] 1 = .ok 1 from rfl]
    dsimp only
    rw [show (List.drop 1 ['a', '=', 'b', c, 'c']).head? = some '=' from rfl]
    dsimp only
    rw [if_pos (rfl : '=' = '=')]
    rw [show acceptOptionalFws ['a', '=', 'b', c, 'c'] (1 + 1) = .ok 2 from rfl]
    dsimp only
    rw [hsv]
    dsimp only
    rw [show parseLoop ['a', '=', 'b', c, 'c'] 6 5 = .ok [] from rfl]
    rfl

/-- Witness for C10 at the control character with code point 1: the input
`a=b<0x01>c` parses to one item whose value holds the byte verbatim. -/
theorem C10_nonprintable_kept_in_value_witness :
    NewTagValue ("a=b".toList ++ [Char.ofNat 1] ++ "c".toList) =
      .ok [{ Tag := "a".toList, Value := "b".toList ++ [Char.ofNat 1] ++ "c".toList,
             TagPos := 0, ValuePos := 2 }] :=
  C10_nonprintable_kept_in_value (Char.ofNat 1) (by decide) (by decide)

/-! Lemmas about upsert on the association-list embedding of Go maps. -/

theorem mapLookup_upsert_self (m : List (List Char × Field)) (k : List Char) (v : Field) :
    mapLookup (mapUpsert m k v) k = some v := by
  induction m with
  | nil => simp [mapUpsert, mapLookup]
  | cons p rest ih =>
    obtain ⟨k2, v2⟩ := p
    by_cases h : k2 = k
    · simp [mapUpsert, mapLookup, h]
    · simp [mapUpsert, mapLookup, h, ih]

theorem mapLookup_upsert_ne (m : List (List Char × Field)) (k : List Char) (v : Field)
    (k2 : List Char) (h : k ≠ k2) :
    mapLookup (mapUpsert m k v) k2 = mapLookup m k2 := by
  induction m with
  | nil => simp [mapUpsert, mapLookup, h]
  | cons p rest ih =>
    obtain ⟨k3, v3⟩ := p
    by_cases h3 : k3 = k
    · subst h3
      simp [mapUpsert, mapLookup, h]
    · simp [mapUpsert, mapLookup, h3, ih]

theorem mapCountKey_cons (p : List Char × Field) (rest : List (List Char × Field))
    (k : List Char) :
    mapCountKey (p :: rest) k = (if p.1 = k then 1 else 0) + mapCountKey rest k := by
  by_cases h : p.1 = k <;> simp [mapCountKey, List.filter_cons, h] <;> omega

theorem countTagged_cons (t : List Char) (it : Item) (rest : List Item) :
    countTagged t (it :: rest) = (if it.Tag = t then 1 else 0) + countTagged t rest := by
  by_cases h : it.Tag = t <;> simp [countTagged, List.filter_cons, h] <;> omega

theorem mapCountKey_upsert_self (m : List (List Char × Field)) (k : List Char) (v : Field) :
    mapCountKey (mapUpsert m k v) k =
      if mapCountKey m k = 0 then 1 else mapCountKey m k := by
  induction m with
  | nil => simp [mapUpsert, mapCountKey_cons, mapCountKey]
  | cons p rest ih =>
    obtain ⟨k2, v2⟩ := p
    by_cases h : k2 = k
    · subst h
      have hu : mapUpsert ((k2, v2) :: rest) k2 v = (k2, v) :: rest := by
        simp [mapUpsert]
      rw [hu, mapCountKey_cons, mapCountKey_cons]
      simp
    · have hu : mapUpsert ((k2, v2) :: rest) k v = (k2, v2) :: mapUpsert rest k v := by
        simp [mapUpsert, h]
      rw [hu, mapCountKey_cons, mapCountKey_cons, ih]
      simp [h]

theorem mapCountKey_upsert_ne (m : List (List Char × Field)) (k : List Char) (v : Field)
    (k2 : List Char) (h : k ≠ k2) :
    mapCountKey (mapUpsert m k v) k2 = mapCountKey m k2 := by
  induction m with
  | nil => simp [mapUpsert, mapCountKey_cons, mapCountKey, h]
  | cons p rest ih =>
    obtain ⟨k3, v3⟩ := p
    by_cases h3 : k3 = k
    · subst h3
      simp [mapUpsert, mapCountKey_cons, h]
    · simp [mapUpsert, h3, mapCountKey_cons, ih]

/-- A tag occurs in the item list exactly when `lastTagged` finds an
occurrence. -/
theorem lastTagged_none_iff (t : List Char) (items : List Item) :
    lastTagged t items = none ↔ countTagged t items = 0 := by
  induction items with
  | nil => simp [lastTagged, countTagged]
  | cons it rest ih =>
    cases hrest : lastTagged t rest with
    | none =>
      have hcr : countTagged t rest = 0 := ih.mp hrest
      by_cases h : it.Tag = t
      · simp [lastTagged, hrest, countTagged_cons, h]
      · simp [lastTagged, hrest, countTagged_cons, h, hcr]
    | some ji =>
      have hcr : countTagged t rest ≠ 0 := by
        intro hc
        have hn := ih.mpr hc
        rw [hn] at hrest
        cases hrest
      by_cases h : it.Tag = t <;>
        simp [lastTagged, hrest, countTagged_cons, h, hcr] <;> omega

/-- The pair returned by `lastTagged` really is the last occurrence of the
tag: it sits at that index, carries the tag, and no later item does. -/
theorem lastTagged_spec (t : List Char) (items : List Item) (j : Nat) (it : Item)
    (h : lastTagged t items = some (j, it)) :
    items.get? j = some it ∧ it.Tag = t ∧
      ∀ j2, j < j2 → ∀ it2, items.get? j2 = some it2 → it2.Tag ≠ t := by
  induction items generalizing j with
  | nil => cases h
  | cons it0 rest ih =>
    cases hrest : lastTagged t rest with
    | some ji =>
      obtain ⟨j', it'⟩ := ji
      rw [lastTagged, hrest] at h
      cases h
      obtain ⟨hget, htag, hlater⟩ := ih j' hrest
      refine ⟨hget, htag, ?_⟩
      intro j2 hj2 it2 hget2
      cases j2 with
      | zero => omega
      | succ j3 =>
        exact hlater j3 (by omega) it2 hget2
    | none =>
      rw [lastTagged, hrest] at h
      by_cases h0 : it0.Tag = t
      · rw [if_pos h0] at h
        cases h
        refine ⟨rfl, h0, ?_⟩
        intro j2 hj2 it2 hget2
        cases j2 with
        | zero => omega
        | succ j3 =>
          have hc : countTagged t rest = 0 := (lastTagged_none_iff t rest).mp hrest
          have hmem : it2 ∈ rest := List.get?_mem hget2
          intro htag2
          have : it2 ∈ rest.filter (fun x => decide (x.Tag = t)) :=
            List.mem_filter.mpr ⟨hmem, by simp [htag2]⟩
          rw [List.length_eq_zero.mp hc] at this
          cases this
      · rw [if_neg h0] at h
        cases h

theorem mapHasKey_upsert (m : List (List Char × Field)) (k : List Char) (v : Field)
    (k2 : List Char) :
    mapHasKey (mapUpsert m k v) k2 = (decide (k = k2) || mapHasKey m k2) := by
  by_cases h : k = k2
  · subst h
    simp [mapHasKey, mapLookup_upsert_self]
  · simp [mapHasKey, mapLookup_upsert_ne m k v k2 h, h]

/-- Lookup after the insertion loop of `NewMap`: a tag that occurs maps to
its last occurrence, with the index offset by the loop counter and the
duplicate flag recording whether the tag was seen before; other tags are
untouched. -/
theorem buildFields_lookup (t : List Char) (items : List Item) :
    ∀ (i : Nat) (m : List (List Char × Field)),
    mapLookup (buildFields items i m) t =
      match lastTagged t items with
      | some ji =>
          some { Item := ji.2, Index := i + ji.1,
                 Duplicate := (mapHasKey m t || decide (2 ≤ countTagged t items)),
                 Defined := true, Errors := [] }
      | none => mapLookup m t := by
  induction items with
  | nil =>
    intro i m
    simp [buildFields, lastTagged]
  | cons it rest ih =>
    intro i m
    rw [show buildFields (it :: rest) i m =
        buildFields rest (i + 1)
          (mapUpsert m it.Tag
            { Item := it, Index := i, Duplicate := mapHasKey m it.Tag,
              Defined := true, Errors := [] }) from rfl]
    rw [ih]
    cases hrest : lastTagged t rest with
    | some ji =>
      rw [show lastTagged t (it :: rest) = some (ji.1 + 1, ji.2) from by
        rw [lastTagged, hrest]]
      dsimp only
      have hndx : i + 1 + ji.1 = i + (ji.1 + 1) := by omega
      have hcr : countTagged t rest ≠ 0 := by
        intro hc
        have hn := (lastTagged_none_iff t rest).mpr hc
        rw [hn] at hrest
        cases hrest
      by_cases hT : it.Tag = t
      · subst hT
        have hdup : (mapHasKey (mapUpsert m it.Tag
              { Item := it, Index := i, Duplicate := mapHasKey m it.Tag,
                Defined := true, Errors := [] }) it.Tag ||
              decide (2 ≤ countTagged it.Tag rest)) =
            (mapHasKey m it.Tag || decide (2 ≤ countTagged it.Tag (it :: rest))) := by
          rw [mapHasKey_upsert]
          rw [countTagged_cons]
          simp only [if_pos rfl, decide_eq_true_eq]
          have h2 : 2 ≤ 1 + countTagged it.Tag rest := by omega
          simp [h2]
        rw [hndx, hdup]
      · have hdup : (mapHasKey (mapUpsert m it.Tag
              { Item := it, Index := i, Duplicate := mapHasKey m it.Tag,
                Defined := true, Errors := [] }) t ||
              decide (2 ≤ countTagged t rest)) =
            (mapHasKey m t || decide (2 ≤ countTagged t (it :: rest))) := by
          rw [mapHasKey_upsert]
          rw [countTagged_cons, if_neg hT]
          simp [hT]
        rw [hndx, hdup]
    | none =>
      have hcr : countTagged t rest = 0 := (lastTagged_none_iff t rest).mp hrest
      rw [show lastTagged t (it :: rest) =
          (if it.Tag = t then some (0, it) else none) from by
        rw [lastTagged, hrest]]
      dsimp only
      by_cases hT : it.Tag = t
      · subst hT
        rw [if_pos rfl]
        rw [mapLookup_upsert_self]
        have hc1 : countTagged it.Tag (it :: rest) = 1 := by
          rw [countTagged_cons, if_pos rfl, hcr]
        rw [hc1]
        simp
      · rw [if_neg hT]
        exact mapLookup_upsert_ne m it.Tag _ t hT

/-- Key multiplicity after the insertion loop of `NewMap`: a tag that occurs
in the items ends up with exactly one binding (when it had none before). -/
theorem buildFields_countKey (t : List Char) (items : List Item) :
    ∀ (i : Nat) (m : List (List Char × Field)),
    mapCountKey (buildFields items i m) t =
      if countTagged t items = 0 then mapCountKey m t
      else if mapCountKey m t = 0 then 1 else mapCountKey m t := by
  induction items with
  | nil =>
    intro i m
    simp [buildFields, countTagged]
  | cons it rest ih =>
    intro i m
    rw [show buildFields (it :: rest) i m =
        buildFields rest (i + 1)
          (mapUpsert m it.Tag
            { Item := it, Index := i, Duplicate := mapHasKey m it.Tag,
              Defined := true, Errors := [] }) from rfl]
    rw [ih]
    rw [countTagged_cons]
    by_cases hT : it.Tag = t
    · subst hT
      rw [if_pos rfl]
      rw [mapCountKey_upsert_self]
      by_cases hr : countTagged it.Tag rest = 0 <;>
        by_cases hm : mapCountKey m it.Tag = 0 <;>
          simp [hr, hm] <;> omega
    · rw [if_neg hT]
      rw [mapCountKey_upsert_ne m it.Tag _ t hT]
      simp

/-- Claim C1: for every input that parses and every tag name occurring more
than once among the parsed items, the map returned by `NewMap` holds exactly
one binding for that tag, and its field carries the item (value and
positions) of the last occurrence, `Duplicate = true`, and `Index` equal to
that last occurrence's 0-based position among all parsed items. -/
theorem C1_newmap_duplicate_last_occurrence (input : List Char) (items : List Item)
    (m : List (List Char × Field)) (t : List Char)
    (hitems : NewTagValue input = .ok items) (hm : NewMap input = .ok m)
    (hdup : 2 ≤ countTagged t items) :
    mapCountKey m t = 1 ∧
    ∃ j it, items.get? j = some it ∧ it.Tag = t ∧
      (∀ j2, j < j2 → ∀ it2, items.get? j2 = some it2 → it2.Tag ≠ t) ∧
      mapLookup m t =
        some { Item := it, Index := j, Duplicate := true, Defined := true,
               Errors := [] } := by
  have hm2 : m = buildFields items 0 [] := by
    unfold NewMap at hm
    rw [hitems] at hm
    cases hm
    rfl
  subst hm2
  constructor
  · rw [buildFields_countKey]
    have hne : ¬ countTagged t items = 0 := by omega
    rw [if_neg hne]
    simp [mapCountKey]
  · cases hlast : lastTagged t items with
    | none =>
      exfalso
      have := (lastTagged_none_iff t items).mp hlast
      omega
    | some ji =>
      obtain ⟨j, it⟩ := ji
      obtain ⟨hget, htag, hlater⟩ := lastTagged_spec t items j it hlast
      refine ⟨j, it, hget, htag, hlater, ?_⟩
      rw [buildFields_lookup]
      rw [hlast]
      have h2 : 2 ≤ countTagged t items := hdup
      simp [mapHasKey, mapLookup, h2]

/-- Witness for C1 at `"a=1;b=2;a=3"` with tag `a`: the map has exactly one
binding for `a`, pointing at the third item (value 3, index 2) with the
duplicate flag set. -/
theorem C1_newmap_duplicate_last_occurrence_witness :
    mapCountKey
        [("a".toList,
          { Item := { Tag := "a".toList, Value := "3".toList, TagPos := 8, ValuePos := 10 },
            Index := 2, Duplicate := true, Defined := true, Errors := [] }),
         ("b".toList,
          { Item := { Tag := "b".toList, Value := "2".toList, TagPos := 4, ValuePos := 6 },
            Index := 1, Duplicate := false, Defined := true, Errors := [] })]
        "a".toList = 1 ∧
    ∃ j it,
      ([{ Tag := "a".toList, Value := "1".toList, TagPos := 0, ValuePos := 2 },
        { Tag := "b".toList, Value := "2".toList, TagPos := 4, ValuePos := 6 },
        { Tag := "a".toList, Value := "3".toList, TagPos := 8, ValuePos := 10 }] :
          List Item).get? j =
          some it ∧
      it.Tag = "a".toList ∧
      (∀ j2, j < j2 → ∀ it2,
        ([{ Tag := "a".toList, Value := "1".toList, TagPos := 0, ValuePos := 2 },
          { Tag := "b".toList, Value := "2".toList, TagPos := 4, ValuePos := 6 },
          { Tag := "a".toList, Value := "3".toList, TagPos := 8, ValuePos := 10 }] :
            List Item).get? j2 =
            some it2 → it2.Tag ≠ "a".toList) ∧
      mapLookup
        [("a".toList,
          { Item := { Tag := "a".toList, Value := "3".toList, TagPos := 8, ValuePos := 10 },
            Index := 2, Duplicate := true, Defined := true, Errors := [] }),
         ("b".toList,
          { Item := { Tag := "b".toList, Value := "2".toList, TagPos := 4, ValuePos := 6 },
            Index := 1, Duplicate := false, Defined := true, Errors := [] })]
        "a".toList =
        some { Item := it, Index := j, Duplicate := true, Defined := true, Errors := [] } :=
  C1_newmap_duplicate_last_occurrence "a=1;b=2;a=3".toList
    [{ Tag := "a".toList, Value := "1".toList, TagPos := 0, ValuePos := 2 },
     { Tag := "b".toList, Value := "2".toList, TagPos := 4, ValuePos := 6 },
     { Tag := "a".toList, Value := "3".toList, TagPos := 8, ValuePos := 10 }]
    _ "a".toList (by rfl) (by rfl) (by decide)

/-! Lemmas about character runs and optional folding whitespace, feeding the
structural analysis of `scanValue` and `parseLoop`. -/

theorem get?_drop_eq (l : List Char) (i j : Nat) : (l.drop i).get? j = l.get? (i + j) := by
  simp [List.getElem?_drop]

theorem head?_drop_eq (l : List Char) (n : Nat) : (l.drop n).head? = l.get? n := by
  simp [List.head?_eq_getElem?, List.getElem?_drop]

theorem get?_lt_length {l : List Char} {n : Nat} {c : Char} (h : l.get? n = some c) :
    n < l.length := by
  simp only [List.get?_eq_getElem?] at h
  exact (List.getElem?_eq_some_iff.mp h).1

theorem get?_mem_of_eq {l : List Char} {n : Nat} {c : Char} (h : l.get? n = some c) :
    c ∈ l := by
  simp only [List.get?_eq_getElem?] at h
  exact List.getElem?_mem h

theorem runLength_le (valid cs : List Char) : runLength valid cs ≤ cs.length := by
  induction cs with
  | nil => simp [runLength]
  | cons c cs ih => by_cases h : c ∈ valid <;> simp [runLength, h] <;> omega

theorem runLength_get (valid cs : List Char) :
    ∀ k, k < runLength valid cs → ∃ c, cs.get? k = some c ∧ c ∈ valid := by
  induction cs with
  | nil =>
    intro k h
    simp [runLength] at h
  | cons c cs ih =>
    intro k h
    by_cases hc : c ∈ valid
    · cases k with
      | zero => exact ⟨c, rfl, hc⟩
      | succ k2 =>
        rw [runLength, if_pos hc] at h
        obtain ⟨c2, hg, hm⟩ := ih k2 (by omega)
        exact ⟨c2, by simpa using hg, hm⟩
    · rw [runLength, if_neg hc] at h
      omega

theorem runLength_stop (valid cs : List Char) :
    ∀ c, cs.get? (runLength valid cs) = some c → c ∉ valid := by
  induction cs with
  | nil =>
    intro c h
    cases h
  | cons c0 cs ih =>
    intro c h
    by_cases hc : c0 ∈ valid
    · rw [runLength, if_pos hc] at h
      exact ih c (by simpa using h)
    · rw [runLength, if_neg hc] at h
      simp only [List.get?_cons_zero, Option.some.injEq] at h
      subst h
      exact hc

theorem valcharRun_le (cs : List Char) : valcharRun cs ≤ cs.length := by
  induction cs with
  | nil => simp [valcharRun]
  | cons c cs ih => by_cases h : isValchar c <;> simp [valcharRun, h] <;> omega

theorem valcharRun_get (cs : List Char) :
    ∀ k, k < valcharRun cs → ∃ c, cs.get? k = some c ∧ isValchar c = true := by
  induction cs with
  | nil =>
    intro k h
    simp [valcharRun] at h
  | cons c cs ih =>
    intro k h
    by_cases hc : isValchar c
    · cases k with
      | zero => exact ⟨c, rfl, hc⟩
      | succ k2 =>
        rw [valcharRun, if_pos hc] at h
        obtain ⟨c2, hg, hm⟩ := ih k2 (by omega)
        exact ⟨c2, by simpa using hg, hm⟩
    · rw [valcharRun, if_neg hc] at h
      omega

theorem isValchar_not_wsp (c : Char) (h : isValchar c = true) : c ∉ wsp := by
  intro hw
  have h2 : c = ' ' ∨ c = '\t' := by simpa [wsp] using hw
  rcases h2 with h2 | h2 <;> subst h2 <;> exact absurd h (by decide)

theorem take_two_eq {l : List Char} {a b : Char} (h : l.take 2 = [a, b]) :
    l.get? 0 = some a ∧ l.get? 1 = some b := by
  cases l with
  | nil => simp [List.take] at h
  | cons c1 l1 =>
    cases l1 with
    | nil => simp at h
    | cons c2 l2 =>
      simp at h
      obtain ⟨h1, h2⟩ := h
      subst h1
      subst h2
      exact ⟨rfl, rfl⟩

/-- Everything `acceptOptionalFws` establishes when it succeeds: the
position does not move backwards, stays inside the input, every skipped
character is WSP or part of a CRLF, and the character at the final position
(if any) is not WSP. -/
theorem acceptOptionalFws_ok (input : List Char) (pos p : Nat)
    (h : acceptOptionalFws input pos = .ok p) :
    pos ≤ p ∧ (pos ≤ input.length → p ≤ input.length) ∧ fwsSpan input pos p ∧
      (∀ c, input.get? p = some c → c ∉ wsp) := by
  unfold acceptOptionalFws at h
  by_cases hcrlf :
      (input.drop (pos + runLength wsp (input.drop pos))).take 2 = ['\r', '\n']
  · rw [if_pos hcrlf] at h
    cases hh : (input.drop (pos + runLength wsp (input.drop pos) + 2)).head? with
    | none =>
      rw [hh] at h
      cases h
    | some c =>
      rw [hh] at h
      dsimp only at h
      by_cases hcw : c ∈ wsp
      · rw [if_pos hcw] at h
        cases h
        obtain ⟨hcr0, hcr1⟩ := take_two_eq hcrlf
        rw [get?_drop_eq] at hcr0 hcr1
        rw [head?_drop_eq] at hh
        have hlt : pos + runLength wsp (input.drop pos) + 2 < input.length :=
          get?_lt_length hh
        have hrl2 :=
          runLength_le wsp (input.drop (pos + runLength wsp (input.drop pos) + 3))
        rw [List.length_drop] at hrl2
        refine ⟨by omega, fun _ => by omega, ?_, ?_⟩
        · intro k hk1 hk2
          by_cases hk3 : k < pos + runLength wsp (input.drop pos)
          · obtain ⟨c2, hg, hm⟩ := runLength_get wsp (input.drop pos) (k - pos) (by omega)
            rw [get?_drop_eq] at hg
            rw [show pos + (k - pos) = k from by omega] at hg
            exact ⟨c2, hg, Or.inl hm⟩
          · by_cases hk4 : k = pos + runLength wsp (input.drop pos)
            · refine ⟨'\r', ?_, by simp⟩
              rw [hk4]
              simpa using hcr0
            · by_cases hk5 : k = pos + runLength wsp (input.drop pos) + 1
              · refine ⟨'\n', ?_, by simp⟩
                rw [hk5]
                exact hcr1
              · by_cases hk6 : k = pos + runLength wsp (input.drop pos) + 2
                · refine ⟨c, ?_, Or.inl hcw⟩
                  rw [hk6]
                  exact hh
                · obtain ⟨c2, hg, hm⟩ :=
                    runLength_get wsp
                      (input.drop (pos + runLength wsp (input.drop pos) + 3))
                      (k - (pos + runLength wsp (input.drop pos) + 3)) (by omega)
                  rw [get?_drop_eq] at hg
                  rw [show pos + runLength wsp (input.drop pos) + 3 +
                      (k - (pos + runLength wsp (input.drop pos) + 3)) = k from by
                    omega] at hg
                  exact ⟨c2, hg, Or.inl hm⟩
        · intro c2 hg
          have hstop :=
            runLength_stop wsp (input.drop (pos + runLength wsp (input.drop pos) + 3))
          apply hstop
          rw [get?_drop_eq]
          exact hg
      · rw [if_neg hcw] at h
        cases h
  · rw [if_neg hcrlf] at h
    cases h
    have hrl := runLength_le wsp (input.drop pos)
    rw [List.length_drop] at hrl
    refine ⟨by omega, fun hp => by omega, ?_, ?_⟩
    · intro k hk1 hk2
      obtain ⟨c2, hg, hm⟩ := runLength_get wsp (input.drop pos) (k - pos) (by omega)
      rw [get?_drop_eq] at hg
      rw [show pos + (k - pos) = k from by omega] at hg
      exact ⟨c2, hg, Or.inl hm⟩
    · intro c2 hg
      apply runLength_stop wsp (input.drop pos)
      rw [get?_drop_eq]
      exact hg

/-- Everything the `value:` loop establishes when it completes: the recorded
value end `q` lies between the value start and the resume position, the value
does not end in WSP (given that the loop was entered right after non-WSP),
and between `q` and the terminator there is only folding whitespace, ended
either by the end of input or by a semicolon sitting just before the resume
position. -/
theorem scanValue_spec (input : List Char) :
    ∀ (fuel pos q r start : Nat),
    scanValue input fuel pos = .ok (q, r) →
    pos ≤ input.length → start ≤ pos →
    (pos = start ∨ ∃ c, input.get? (pos - 1) = some c ∧ c ∉ wsp) →
    (pos ≤ q ∧ start ≤ q ∧ q ≤ input.length ∧ q ≤ r ∧ r ≤ input.length ∧
     (q = start ∨ ∃ c, input.get? (q - 1) = some c ∧ c ∉ wsp) ∧
     ((r = input.length ∧ fwsSpan input q r) ∨
      (q < r ∧ input.get? (r - 1) = some ';' ∧ fwsSpan input q (r - 1)))) := by
  intro fuel
  induction fuel with
  | zero =>
    intro pos q r start h
    simp [scanValue] at h
  | succ fuel ih =>
    intro pos q r start h hlen hstart hprev
    rw [scanValue_succ] at h
    dsimp only at h
    cases hf : acceptOptionalFws input (pos + valcharRun (input.drop pos)) with
    | error e =>
      rw [hf] at h
      cases h
    | ok q2 =>
      rw [hf] at h
      dsimp only at h
      have hvr := valcharRun_le (input.drop pos)
      rw [List.length_drop] at hvr
      have hq0len : pos + valcharRun (input.drop pos) ≤ input.length := by omega
      obtain ⟨hf1, hf2, hf3, hf4⟩ := acceptOptionalFws_ok input _ q2 hf
      have hq2len : q2 ≤ input.length := hf2 hq0len
      have hlast : (pos + valcharRun (input.drop pos) = start ∨
          ∃ c, input.get? (pos + valcharRun (input.drop pos) - 1) = some c ∧ c ∉ wsp) := by
        cases hvz : valcharRun (input.drop pos) with
        | zero =>
          simpa using hprev
        | succ n =>
          right
          obtain ⟨c, hg, hvc⟩ := valcharRun_get (input.drop pos) n (by omega)
          rw [get?_drop_eq] at hg
          refine ⟨c, ?_, isValchar_not_wsp c hvc⟩
          rw [show pos + (n + 1) - 1 = pos + n from by omega]
          exact hg
      cases hh : (input.drop q2).head? with
      | none =>
        rw [hh] at h
        dsimp only at h
        simp only [Except.ok.injEq, Prod.mk.injEq] at h
        obtain ⟨hq, hr⟩ := h
        subst hq
        subst hr
        rw [head?_drop_eq] at hh
        have hq2eq : q2 = input.length := by
          have h2 : input.length ≤ q2 := by
            apply List.getElem?_eq_none_iff.mp
            simpa using hh
          omega
        exact ⟨by omega, by omega, hq0len, hf1, hq2len, hlast,
          Or.inl ⟨hq2eq, hf3⟩⟩
      | some c =>
        rw [hh] at h
        dsimp only at h
        by_cases hsemi : c = ';'
        · subst hsemi
          rw [if_pos rfl] at h
          simp only [Except.ok.injEq, Prod.mk.injEq] at h
          obtain ⟨hq, hr⟩ := h
          subst hq
          subst hr
          rw [head?_drop_eq] at hh
          refine ⟨by omega, by omega, hq0len, by omega, ?_, hlast, ?_⟩
          · have := get?_lt_length hh
            omega
          · right
            refine ⟨by omega, ?_, ?_⟩
            · rw [show q2 + 1 - 1 = q2 from by omega]
              exact hh
            · rw [show q2 + 1 - 1 = q2 from by omega]
              exact hf3
        · rw [if_neg hsemi] at h
          rw [head?_drop_eq] at hh
          have hq2lt : q2 < input.length := get?_lt_length hh
          have hnext := ih (q2 + 1) q r start h (by omega) (by omega)
            (Or.inr ⟨c, by simpa using hh, hf4 c hh⟩)
          obtain ⟨n1, n2, n3, n4, n5, n6, n7⟩ := hnext
          exact ⟨by omega, n2, n3, n4, n5, n6, n7⟩

theorem runLength_take_mem (valid cs : List Char) :
    ∀ x ∈ cs.take (runLength valid cs), x ∈ valid := by
  induction cs with
  | nil =>
    intro x hx
    simp at hx
  | cons c cs ih =>
    intro x hx
    by_cases hc : c ∈ valid
    · rw [runLength, if_pos hc, List.take_succ_cons] at hx
      rcases List.mem_cons.mp hx with h | h
      · subst h
        exact hc
      · exact ih x h
    · rw [runLength, if_neg hc, List.take_zero] at hx
      cases hx

/-- Per-item facts established by the outer loop of `NewTagValue` for every
item it emits: the tag is one alpha character followed by tag characters;
the value is the verbatim slice of the input at its position; the value does
not end in WSP; and between the value end and the terminating semicolon or
end of input there is only folding whitespace. -/
theorem parseLoop_items (input : List Char) :
    ∀ (fuel pos : Nat) (items : List Item),
    parseLoop input fuel pos = .ok items → pos ≤ input.length →
    ∀ it ∈ items,
      (∃ c cs, it.Tag = c :: cs ∧ ¬((c < 'a' ∨ 'z' < c) ∧ (c < 'A' ∨ 'Z' < c)) ∧
          ∀ x ∈ cs, x ∈ tagRunChars) ∧
      it.Value = (input.drop it.ValuePos).take it.Value.length ∧
      (it.Value = [] ∨ ∃ c, it.Value.getLast? = some c ∧ c ∉ wsp) ∧
      ∃ e, it.ValuePos + it.Value.length ≤ e ∧ e ≤ input.length ∧
        (e = input.length ∨ input.get? e = some ';') ∧
        fwsSpan input (it.ValuePos + it.Value.length) e := by
  intro fuel
  induction fuel with
  | zero =>
    intro pos items h
    simp [parseLoop] at h
  | succ fuel ih =>
    intro pos items h hlen
    rw [parseLoop_succ] at h
    cases hf0 : acceptOptionalFws input pos with
    | error e =>
      rw [hf0] at h
      cases h
    | ok p =>
      rw [hf0] at h
      dsimp only at h
      obtain ⟨ha1, ha2, ha3, ha4⟩ := acceptOptionalFws_ok input pos p hf0
      have hplen : p ≤ input.length := ha2 hlen
      cases hh0 : (input.drop p).head? with
      | none =>
        rw [hh0] at h
        dsimp only at h
        simp only [Except.ok.injEq] at h
        subst h
        intro it hit
        cases hit
      | some c =>
        rw [hh0] at h
        dsimp only at h
        by_cases halpha : (c < 'a' ∨ 'z' < c) ∧ (c < 'A' ∨ 'Z' < c)
        · rw [if_pos halpha] at h
          cases h
        · rw [if_neg halpha] at h
          have hg0 : input.get? p = some c := by
            rw [← head?_drop_eq]
            exact hh0
          have hplt : p < input.length := get?_lt_length hg0
          have htr := runLength_le tagRunChars (input.drop (p + 1))
          rw [List.length_drop] at htr
          have htglen : p + 1 + runLength tagRunChars (input.drop (p + 1)) ≤
              input.length := by omega
          cases hf1 : acceptOptionalFws input
              (p + 1 + runLength tagRunChars (input.drop (p + 1))) with
          | error e =>
            rw [hf1] at h
            cases h
          | ok p2 =>
            rw [hf1] at h
            dsimp only at h
            obtain ⟨hb1, hb2, hb3, hb4⟩ := acceptOptionalFws_ok input _ p2 hf1
            have hp2len : p2 ≤ input.length := hb2 htglen
            cases hh2 : (input.drop p2).head? with
            | none =>
              rw [hh2] at h
              cases h
            | some c2 =>
              rw [hh2] at h
              dsimp only at h
              have hg2 : input.get? p2 = some c2 := by
                rw [← head?_drop_eq]
                exact hh2
              have hp2lt : p2 < input.length := get?_lt_length hg2
              by_cases heq : c2 = '='
              · rw [if_pos heq] at h
                cases hf2 : acceptOptionalFws input (p2 + 1) with
                | error e =>
                  rw [hf2] at h
                  cases h
                | ok vstart =>
                  rw [hf2] at h
                  dsimp only at h
                  obtain ⟨hc1, hc2, hc3, hc4⟩ := acceptOptionalFws_ok input _ vstart hf2
                  have hvslen : vstart ≤ input.length := hc2 (by omega)
                  cases hsv : scanValue input fuel vstart with
                  | error e =>
                    rw [hsv] at h
                    cases h
                  | ok qr =>
                    rw [hsv] at h
                    obtain ⟨q, r⟩ := qr
                    dsimp only at h
                    cases hpl : parseLoop input fuel r with
                    | error e =>
                      rw [hpl] at h
                      cases h
                    | ok rest =>
                      rw [hpl] at h
                      dsimp only at h
                      simp only [Except.ok.injEq] at h
                      subst h
                      obtain ⟨s1, s2, s3, s4, s5, s6, s7⟩ :=
                        scanValue_spec input fuel vstart q r vstart hsv hvslen
                          (Nat.le_refl _) (Or.inl rfl)
                      intro it hit
                      rcases List.mem_cons.mp hit with hit | hit
                      · subst hit
                        dsimp only
                        have hvl : ((input.drop vstart).take (q - vstart)).length =
                            q - vstart := by
                          rw [List.length_take, List.length_drop]
                          omega
                        refine ⟨?_, ?_, ?_, ?_⟩
                        · have hmem : c ∈ (input.drop p).head? := by
                            rw [hh0]
                            rfl
                          have hdp : input.drop p = c :: input.drop (p + 1) := by
                            rw [← List.cons_head?_tail hmem, List.tail_drop]
                          refine ⟨c, (input.drop (p + 1)).take
                            (runLength tagRunChars (input.drop (p + 1))), ?_, halpha, ?_⟩
                          · rw [hdp]
                            rw [show p + 1 + runLength tagRunChars (input.drop (p + 1)) - p =
                                runLength tagRunChars (input.drop (p + 1)) + 1 from by omega]
                            rw [List.take_succ_cons]
                          · exact runLength_take_mem tagRunChars (input.drop (p + 1))
                        · rw [hvl]
                        · by_cases hq : q = vstart
                          · left
                            rw [show q - vstart = 0 from by omega, List.take_zero]
                          · right
                            rcases s6 with s6 | ⟨c3, hg3, hw3⟩
                            · exact absurd s6 hq
                            · refine ⟨c3, ?_, hw3⟩
                              rw [List.getLast?_eq_getElem?, hvl]
                              rw [List.getElem?_take_of_lt (by omega)]
                              rw [List.getElem?_drop]
                              rw [show vstart + (q - vstart - 1) = q - 1 from by omega]
                              simpa using hg3
                        · rw [hvl]
                          have hvq : vstart + (q - vstart) = q := by omega
                          rw [hvq]
                          rcases s7 with ⟨hr, hspan⟩ | ⟨hqr, hsemi, hspan⟩
                          · exact ⟨r, s4, s5, Or.inl hr, hspan⟩
                          · refine ⟨r - 1, by omega, by omega, Or.inr hsemi, hspan⟩
                      · exact ih r rest hpl s5 it hit
              · rw [if_neg heq] at h
                cases h

/-- Claim C2: for every input that parses, each emitted item's value is the
verbatim slice of the input at its position (so folding whitespace inside
the value, between value-character runs, is preserved exactly as written),
the stored value does not end in whitespace, and everything between the end
of the stored value and the terminating semicolon or end of input is
folding whitespace — the trailing FWS is trimmed from the stored value. -/
theorem C2_value_trailing_fws_trimmed (input : List Char) (items : List Item)
    (h : NewTagValue input = .ok items) :
    ∀ it ∈ items,
      it.Value = (input.drop it.ValuePos).take it.Value.length ∧
      (it.Value = [] ∨ ∃ c, it.Value.getLast? = some c ∧ c ∉ wsp) ∧
      ∃ e, it.ValuePos + it.Value.length ≤ e ∧ e ≤ input.length ∧
        (e = input.length ∨ input.get? e = some ';') ∧
        fwsSpan input (it.ValuePos + it.Value.length) e := by
  intro it hit
  have hall := parseLoop_items input (input.length + 2) 0 items h (by omega) it hit
  exact ⟨hall.2.1, hall.2.2.1, hall.2.2.2⟩

/-- Witness for C2 at `"a=b c ;"`: the stored value is `b c` — internal WSP
preserved, trailing WSP trimmed, with only whitespace between value end and
the semicolon. -/
theorem C2_value_trailing_fws_trimmed_witness :
    "b c".toList = ("a=b c ;".toList.drop 2).take "b c".toList.length ∧
    ("b c".toList = [] ∨ ∃ c, "b c".toList.getLast? = some c ∧ c ∉ wsp) ∧
    ∃ e, 2 + "b c".toList.length ≤ e ∧ e ≤ "a=b c ;".toList.length ∧
      (e = "a=b c ;".toList.length ∨ "a=b c ;".toList.get? e = some ';') ∧
      fwsSpan "a=b c ;".toList (2 + "b c".toList.length) e :=
  C2_value_trailing_fws_trimmed "a=b c ;".toList
    [{ Tag := "a".toList, Value := "b c".toList, TagPos := 0, ValuePos := 2 }]
    (by rfl)
    { Tag := "a".toList, Value := "b c".toList, TagPos := 0, ValuePos := 2 }
    (by decide)

/-! Helpers for the round-trip property: decomposing the input into slices
and computing `stripWsp` on each slice. -/

theorem drop_decompose (l : List Char) (a b : Nat) (h : a ≤ b) :
    l.drop a = (l.drop a).take (b - a) ++ l.drop b := by
  conv_lhs => rw [← List.take_append_drop (b - a) (l.drop a)]
  rw [List.drop_drop]
  rw [show a + (b - a) = b from by omega]

theorem stripWsp_append (x y : List Char) :
    stripWsp (x ++ y) = stripWsp x ++ stripWsp y := by
  simp [stripWsp]

theorem stripWsp_all_wsp (l : List Char) (h : ∀ c ∈ l, c ∈ wsp) : stripWsp l = [] := by
  apply List.filter_eq_nil_iff.mpr
  intro a ha
  simp [h a ha]

theorem stripWsp_no_wsp (l : List Char) (h : ∀ c ∈ l, c ∉ wsp) : stripWsp l = l := by
  apply List.filter_eq_self.mpr
  intro a ha
  simp [h a ha]

theorem span_slice_wsp (input : List Char) (a b : Nat) (hspan : fwsSpan input a b)
    (hnc : ∀ c ∈ input, c ≠ '\r' ∧ c ≠ '\n') :
    ∀ c ∈ (input.drop a).take (b - a), c ∈ wsp := by
  intro c hc
  obtain ⟨k, hk⟩ := List.getElem?_of_mem hc
  have hklt : k < ((input.drop a).take (b - a)).length := by
    by_contra hge
    rw [List.getElem?_eq_none (by omega)] at hk
    cases hk
  rw [List.length_take, List.length_drop] at hklt
  have hkb : k < b - a := by omega
  rw [List.getElem?_take_of_lt hkb, List.getElem?_drop] at hk
  have hg : input.get? (a + k) = some c := by simpa using hk
  obtain ⟨c2, hg2, hc2⟩ := hspan (a + k) (by omega) (by omega)
  rw [hg] at hg2
  cases hg2
  have hmem : c ∈ input := get?_mem_of_eq hg
  rcases hc2 with hc2 | hc2 | hc2
  · exact hc2
  · exact absurd hc2 (hnc c hmem).1
  · exact absurd hc2 (hnc c hmem).2

theorem drop_cons_of_get? (l : List Char) (n : Nat) (c : Char)
    (h : l.get? n = some c) : l.drop n = c :: l.drop (n + 1) := by
  have hmem : c ∈ (l.drop n).head? := by
    rw [head?_drop_eq]
    exact Option.mem_def.mpr h
  rw [← List.cons_head?_tail hmem, List.tail_drop]

theorem slice_one (l : List Char) (n : Nat) (c : Char) (h : l.get? n = some c) :
    (l.drop n).take 1 = [c] := by
  rw [drop_cons_of_get? l n c h, List.take_succ_cons, List.take_zero]

theorem alpha_not_wsp (c : Char)
    (h : ¬((c < 'a' ∨ 'z' < c) ∧ (c < 'A' ∨ 'Z' < c))) : c ∉ wsp := by
  intro hw
  have h2 : c = ' ' ∨ c = '\t' := by simpa [wsp] using hw
  rcases h2 with h2 | h2 <;> subst h2 <;> exact h (by decide)

theorem alpha_ne_semi (c : Char)
    (h : ¬((c < 'a' ∨ 'z' < c) ∧ (c < 'A' ∨ 'Z' < c))) : c ≠ ';' := by
  intro hc
  subst hc
  exact h (by decide)

theorem tagRunChars_not_wsp : ∀ x ∈ tagRunChars, x ∉ wsp := by decide

theorem renderItems_cons (it : Item) (rest : List Item) :
    renderItems (it :: rest) =
      it.Tag ++ ['='] ++ it.Value ++ [';'] ++ renderItems rest := by
  simp [renderItems]


/-- Round-trip invariant of the outer loop: when the input holds no CR and
no LF and every parsed value holds no WSP, re-serializing the items emitted
from position `pos` on reproduces the input from `pos` on with all WSP
removed — up to one trailing semicolon that re-serialization always adds
and the input may lack. -/
theorem parseLoop_render (input : List Char)
    (hnc : ∀ c ∈ input, c ≠ '\r' ∧ c ≠ '\n') :
    ∀ (fuel pos : Nat) (items : List Item),
    parseLoop input fuel pos = .ok items → pos ≤ input.length →
    (∀ it ∈ items, ∀ c ∈ it.Value, c ∉ wsp) →
    (renderItems items = stripWsp (input.drop pos) ∨
     renderItems items = stripWsp (input.drop pos) ++ [';']) := by
  intro fuel
  induction fuel with
  | zero =>
    intro pos items h
    simp [parseLoop] at h
  | succ fuel ih =>
    intro pos items h hlen hvals
    rw [parseLoop_succ] at h
    cases hf0 : acceptOptionalFws input pos with
    | error e =>
      rw [hf0] at h
      cases h
    | ok p =>
      rw [hf0] at h
      dsimp only at h
      obtain ⟨ha1, ha2, ha3, ha4⟩ := acceptOptionalFws_ok input pos p hf0
      have hplen : p ≤ input.length := ha2 hlen
      cases hh0 : (input.drop p).head? with
      | none =>
        rw [hh0] at h
        dsimp only at h
        simp only [Except.ok.injEq] at h
        subst h
        left
        rw [head?_drop_eq] at hh0
        have hpeq : p = input.length := by
          have h2 : input.length ≤ p := by
            apply List.getElem?_eq_none_iff.mp
            simpa using hh0
          omega
        have hsplit := drop_decompose input pos p ha1
        rw [show input.drop p = [] from List.drop_eq_nil_iff.mpr (by omega)] at hsplit
        rw [List.append_nil] at hsplit
        rw [hsplit]
        rw [stripWsp_all_wsp _ (span_slice_wsp input pos p ha3 hnc)]
        rfl
      | some c =>
        rw [hh0] at h
        dsimp only at h
        by_cases halpha : (c < 'a' ∨ 'z' < c) ∧ (c < 'A' ∨ 'Z' < c)
        · rw [if_pos halpha] at h
          cases h
        · rw [if_neg halpha] at h
          have hg0 : input.get? p = some c := by
            rw [← head?_drop_eq]
            exact hh0
          have hplt : p < input.length := get?_lt_length hg0
          have htr := runLength_le tagRunChars (input.drop (p + 1))
          rw [List.length_drop] at htr
          have htglen : p + 1 + runLength tagRunChars (input.drop (p + 1)) ≤
              input.length := by omega
          cases hf1 : acceptOptionalFws input
              (p + 1 + runLength tagRunChars (input.drop (p + 1))) with
          | error e =>
            rw [hf1] at h
            cases h
          | ok p2 =>
            rw [hf1] at h
            dsimp only at h
            obtain ⟨hb1, hb2, hb3, hb4⟩ := acceptOptionalFws_ok input _ p2 hf1
            have hp2len : p2 ≤ input.length := hb2 htglen
            cases hh2 : (input.drop p2).head? with
            | none =>
              rw [hh2] at h
              cases h
            | some c2 =>
              rw [hh2] at h
              dsimp only at h
              have hg2 : input.get? p2 = some c2 := by
                rw [← head?_drop_eq]
                exact hh2
              have hp2lt : p2 < input.length := get?_lt_length hg2
              by_cases heq : c2 = '='
              · rw [if_pos heq] at h
                subst heq
                cases hf2 : acceptOptionalFws input (p2 + 1) with
                | error e =>
                  rw [hf2] at h
                  cases h
                | ok vstart =>
                  rw [hf2] at h
                  dsimp only at h
                  obtain ⟨hc1, hc2, hc3, hc4⟩ := acceptOptionalFws_ok input _ vstart hf2
                  have hvslen : vstart ≤ input.length := hc2 (by omega)
                  cases hsv : scanValue input fuel vstart with
                  | error e =>
                    rw [hsv] at h
                    cases h
                  | ok qr =>
                    rw [hsv] at h
                    obtain ⟨q, r⟩ := qr
                    dsimp only at h
                    cases hpl : parseLoop input fuel r with
                    | error e =>
                      rw [hpl] at h
                      cases h
                    | ok rest =>
                      rw [hpl] at h
                      dsimp only at h
                      simp only [Except.ok.injEq] at h
                      subst h
                      obtain ⟨s1, s2, s3, s4, s5, s6, s7⟩ :=
                        scanValue_spec input fuel vstart q r vstart hsv hvslen
                          (Nat.le_refl _) (Or.inl rfl)
                      have E0 : stripWsp ((input.drop pos).take (p - pos)) = [] :=
                        stripWsp_all_wsp _ (span_slice_wsp input pos p ha3 hnc)
                      have hdp : input.drop p = c :: input.drop (p + 1) :=
                        drop_cons_of_get? input p c hg0
                      have htag : (input.drop p).take
                          (p + 1 + runLength tagRunChars (input.drop (p + 1)) - p) =
                          c :: (input.drop (p + 1)).take
                            (runLength tagRunChars (input.drop (p + 1))) := by
                        rw [hdp]
                        rw [show p + 1 + runLength tagRunChars (input.drop (p + 1)) - p =
                            runLength tagRunChars (input.drop (p + 1)) + 1 from by omega]
                        rw [List.take_succ_cons]
                      have E1 : stripWsp ((input.drop p).take
                          (p + 1 + runLength tagRunChars (input.drop (p + 1)) - p)) =
                          (input.drop p).take
                            (p + 1 + runLength tagRunChars (input.drop (p + 1)) - p) := by
                        apply stripWsp_no_wsp
                        intro x hx
                        rw [htag] at hx
                        rcases List.mem_cons.mp hx with hx | hx
                        · subst hx
                          exact alpha_not_wsp x halpha
                        · exact tagRunChars_not_wsp x
                            (runLength_take_mem tagRunChars (input.drop (p + 1)) x hx)
                      have E2 : stripWsp ((input.drop
                          (p + 1 + runLength tagRunChars (input.drop (p + 1)))).take
                          (p2 - (p + 1 + runLength tagRunChars (input.drop (p + 1))))) =
                          [] :=
                        stripWsp_all_wsp _ (span_slice_wsp input _ p2 hb3 hnc)
                      have E3 : stripWsp ((input.drop p2).take (p2 + 1 - p2)) = ['='] := by
                        rw [show p2 + 1 - p2 = 1 from by omega]
                        rw [slice_one input p2 '=' hg2]
                        rfl
                      have E4 : stripWsp ((input.drop (p2 + 1)).take (vstart - (p2 + 1))) =
                          [] :=
                        stripWsp_all_wsp _ (span_slice_wsp input _ vstart hc3 hnc)
                      have E5 : stripWsp ((input.drop vstart).take (q - vstart)) =
                          (input.drop vstart).take (q - vstart) := by
                        apply stripWsp_no_wsp
                        intro x hx
                        exact hvals _ (List.mem_cons_self _ _) x hx
                      have hrest := ih r rest hpl s5 (fun it hit => hvals it
                        (List.mem_cons_of_mem _ hit))
                      rw [renderItems_cons]
                      dsimp only
                      rcases s7 with ⟨hr, hspan⟩ | ⟨hqr, hsemi, hspan⟩
                      · have E6 : stripWsp ((input.drop q).take (r - q)) = [] :=
                          stripWsp_all_wsp _ (span_slice_wsp input q r hspan hnc)
                        have hdropr : input.drop r = [] :=
                          List.drop_eq_nil_iff.mpr (by omega)
                        have hstrip : stripWsp (input.drop pos) =
                            (input.drop p).take
                              (p + 1 + runLength tagRunChars (input.drop (p + 1)) - p) ++
                            ['='] ++ (input.drop vstart).take (q - vstart) := by
                          conv_lhs =>
                            rw [drop_decompose input pos p ha1,
                              drop_decompose input p
                                (p + 1 + runLength tagRunChars (input.drop (p + 1)))
                                (by omega),
                              drop_decompose input
                                (p + 1 + runLength tagRunChars (input.drop (p + 1))) p2 hb1,
                              drop_decompose input p2 (p2 + 1) (by omega),
                              drop_decompose input (p2 + 1) vstart hc1,
                              drop_decompose input vstart q s1,
                              drop_decompose input q r s4,
                              hdropr]
                          simp only [stripWsp_append, E0, E1, E2, E3, E4, E5, E6]
                          simp [stripWsp]
                        rw [hstrip]
                        rw [hdropr] at hrest
                        rcases hrest with hrest | hrest
                        · rw [hrest]
                          right
                          simp [stripWsp]
                        · exfalso
                          rw [show stripWsp [] = [] from rfl, List.nil_append] at hrest
                          cases rest with
                          | nil => simp [renderItems] at hrest
                          | cons it2 rest2 =>
                            obtain ⟨⟨c0, cs0, htag2, halpha2, h3⟩, h4, h5, h6⟩ :=
                              parseLoop_items input fuel r (it2 :: rest2) hpl s5 it2
                                (List.mem_cons_self _ _)
                            rw [renderItems_cons, htag2] at hrest
                            have hc0 : c0 = ';' := by
                              have hh := congrArg List.head? hrest
                              simpa using hh
                            exact alpha_ne_semi c0 halpha2 hc0
                      · have E6 : stripWsp ((input.drop q).take (r - q)) = [';'] := by
                          have hsl : (input.drop q).take (r - q) =
                              (input.drop q).take (r - 1 - q) ++
                                (input.drop (r - 1)).take 1 := by
                            conv_lhs => rw [drop_decompose input q (r - 1) (by omega)]
                            rw [List.take_append_eq_append_take]
                            have hlt : ((input.drop q).take (r - 1 - q)).length =
                                r - 1 - q := by
                              rw [List.length_take, List.length_drop]
                              omega
                            rw [List.take_of_length_le (by rw [hlt]; omega)]
                            rw [hlt]
                            rw [show r - q - (r - 1 - q) = 1 from by omega]
                          rw [hsl, stripWsp_append]
                          rw [stripWsp_all_wsp _ (span_slice_wsp input q (r - 1) hspan hnc)]
                          rw [slice_one input (r - 1) ';' hsemi]
                          rfl
                        have hstrip : stripWsp (input.drop pos) =
                            (input.drop p).take
                              (p + 1 + runLength tagRunChars (input.drop (p + 1)) - p) ++
                            ['='] ++ (input.drop vstart).take (q - vstart) ++ [';'] ++
                            stripWsp (input.drop r) := by
                          conv_lhs =>
                            rw [drop_decompose input pos p ha1,
                              drop_decompose input p
                                (p + 1 + runLength tagRunChars (input.drop (p + 1)))
                                (by omega),
                              drop_decompose input
                                (p + 1 + runLength tagRunChars (input.drop (p + 1))) p2 hb1,
                              drop_decompose input p2 (p2 + 1) (by omega),
                              drop_decompose input (p2 + 1) vstart hc1,
                              drop_decompose input vstart q s1,
                              drop_decompose input q r s4]
                          simp only [stripWsp_append, E0, E1, E2, E3, E4, E5, E6]
                          simp
                        rw [hstrip]
                        rcases hrest with hrest | hrest
                        · rw [hrest]
                          left
                          simp
                        · rw [hrest]
                          right
                          simp
              · rw [if_neg heq] at h
                cases h


/-- Claim C7: for inputs with no folding whitespace — no CR or LF anywhere
and no WSP inside any parsed value — and no duplicate tag names, that parse
successfully, concatenating `<tag>=<value>;` for every parsed item in
emitted order reproduces the tag and value content of the input: it equals
the input with the optional whitespace around tags and values removed, up
to the final semicolon that the input may omit. -/
theorem C7_roundtrip (input : List Char) (items : List Item)
    (hok : NewTagValue input = .ok items)
    (hnofold : ∀ c ∈ input, c ≠ '\r' ∧ c ≠ '\n')
    (hvals : ∀ it ∈ items, ∀ c ∈ it.Value, c ∉ wsp)
    (hnodup : (items.map Item.Tag).Nodup) :
    renderItems items = stripWsp input ∨
    renderItems items = stripWsp input ++ [';'] := by
  have hr := parseLoop_render input hnofold (input.length + 2) 0 items hok
    (by omega) hvals
  simpa using hr

/-- Witness for C7 at `"a=b; c = d"`: re-serialization gives `a=b;c=d;`,
the input with its optional whitespace removed plus the final semicolon. -/
theorem C7_roundtrip_witness :
    renderItems
      [{ Tag := "a".toList, Value := "b".toList, TagPos := 0, ValuePos := 2 },
       { Tag := "c".toList, Value := "d".toList, TagPos := 5, ValuePos := 9 }] =
      stripWsp "a=b; c = d".toList ∨
    renderItems
      [{ Tag := "a".toList, Value := "b".toList, TagPos := 0, ValuePos := 2 },
       { Tag := "c".toList, Value := "d".toList, TagPos := 5, ValuePos := 9 }] =
      stripWsp "a=b; c = d".toList ++ [';'] :=
  C7_roundtrip "a=b; c = d".toList
    [{ Tag := "a".toList, Value := "b".toList, TagPos := 0, ValuePos := 2 },
     { Tag := "c".toList, Value := "d".toList, TagPos := 5, ValuePos := 9 }]
    (by rfl) (by decide) (by decide) (by decide)

end Tagvalue
